import Mathlib

/-!
Verification model of the jevoisbase `Surprise` component
(src/include/jevoisbase/Components/Saliency/Surprise.H).

The header declares the configuration surface and the `process` entry point:

* parameter `updatefac` : float, default 0.95, valid range `jevois::Range<float>(0.001F, 0.999F)`
  (a jevois Range is the inclusive interval [min, max]);
* parameter `channels` : string, default "SCIOFMG", validated by the regular
  expression `^[SCIOFMG]+$` (one or more characters, each drawn from the
  seven-letter alphabet S, C, I, O, F, M, G), duplicate letters ignored;
* `double process(jevois::RawImage const & input)` over belief surfaces
  held in `std::vector<float> itsAlpha, itsBeta`.

The algorithmic core (belief surfaces, Bayesian update with exponential
forgetting, Gamma Kullback-Leibler divergence, aggregation) is declared in
the header but its implementation file is not part of the sources at hand,
so those operations are modelled from the specification, with a doc comment
`Modelled from the spec:` on every such definition.  Machine floats are
embedded as exact rationals (state, updates, configuration) and real numbers
(divergence values); float rounding is out of scope of this embedding.
-/

namespace Surprise

/-- The seven feature channels of the `channels` parameter alphabet
"SCIOFMG" declared in Surprise.H: S (saliency), C (color), I (intensity),
O (orientation), F (flicker), M (motion), G (gist). -/
inductive Chan : Type
  | S
  | C
  | I
  | O
  | F
  | M
  | G
deriving DecidableEq

/-- The channel alphabet, as the character class of the regular expression
`^[SCIOFMG]+$` from Surprise.H. -/
def chanAlphabet : List Char := ['S', 'C', 'I', 'O', 'F', 'M', 'G']

/-- Decoding of one channel letter, per the alphabet of Surprise.H. -/
def charToChan : Char → Option Chan
  | 'S' => some Chan.S
  | 'C' => some Chan.C
  | 'I' => some Chan.I
  | 'O' => some Chan.O
  | 'F' => some Chan.F
  | 'M' => some Chan.M
  | 'G' => some Chan.G
  | _ => none

/-- Encoding of one channel as its letter, per the alphabet of Surprise.H. -/
def chanToChar : Chan → Char
  | Chan.S => 'S'
  | Chan.C => 'C'
  | Chan.I => 'I'
  | Chan.O => 'O'
  | Chan.F => 'F'
  | Chan.M => 'M'
  | Chan.G => 'G'

/-- Validity of a `channels` string per the regular expression
`^[SCIOFMG]+$` of Surprise.H: the string is non-empty and every character
belongs to the seven-letter alphabet. -/
def validChannels (s : String) : Prop :=
  s.data ≠ [] ∧ ∀ c ∈ s.data, c ∈ chanAlphabet

instance (s : String) : Decidable (validChannels s) := by
  unfold validChannels
  infer_instance

/-- First-occurrence deduplication, accumulator form: characters already in
`seen` are dropped, a new character is kept and recorded.  This realizes the
"Duplicate letters will be ignored" clause of the `channels` parameter and
the spec's "ordered set preserving first occurrence order". -/
def dedupFirstAux {α : Type} [DecidableEq α] (seen : List α) : List α → List α
  | [] => []
  | a :: l => if a ∈ seen then dedupFirstAux seen l else a :: dedupFirstAux (a :: seen) l

/-- First-occurrence deduplication of a list. -/
def dedupFirst {α : Type} [DecidableEq α] (l : List α) : List α :=
  dedupFirstAux [] l

/-- Modelled from the spec: the ChannelSelector output (the implementation
file of the component is not among the sources).  A validated string is
deduplicated keeping first occurrences and decoded into the ordered list of
channel identifiers. -/
def parseChannels (s : String) : List Chan :=
  (dedupFirst s.data).filterMap charToChan

/-- Rendering of a channel list back into a configuration string. -/
def renderChannels (l : List Chan) : String :=
  ⟨l.map chanToChar⟩

/-- Configuration-time error, the spec's ConfigurationError taxonomy entry. -/
inductive ConfigError : Type
  | configurationError
deriving DecidableEq

/-- Modelled from the spec: the set-time behaviour of the `channels`
parameter (validated at set-time; an invalid value is rejected with a
ConfigurationError and the previous valid value remains in effect; a valid
value is stored in deduplicated, decoded form). -/
def setChannels (old : List Chan) (s : String) : List Chan × Option ConfigError :=
  if validChannels s then (parseChannels s, none) else (old, some ConfigError.configurationError)

/-- Default of the `channels` parameter in Surprise.H. -/
def channelsDefault : String := "SCIOFMG"

/-- Validity of an update factor per `jevois::Range<float>(0.001F, 0.999F)`
declared on the `updatefac` parameter in Surprise.H (a jevois Range is the
inclusive interval [min, max]). -/
def validUpdatefac (v : ℚ) : Prop :=
  1 / 1000 ≤ v ∧ v ≤ 999 / 1000

instance (v : ℚ) : Decidable (validUpdatefac v) := by
  unfold validUpdatefac
  infer_instance

/-- Default of the `updatefac` parameter in Surprise.H. -/
def updatefacDefault : ℚ := 95 / 100

/-- Modelled from the spec: the set-time behaviour of the `updatefac`
parameter (validated at set-time; an invalid value is rejected with a
ConfigurationError and the previous valid value remains in effect). -/
def setUpdatefac (old v : ℚ) : ℚ × Option ConfigError :=
  if validUpdatefac v then (v, none) else (old, some ConfigError.configurationError)

/-- Modelled from the spec: the small positive floor of the numerical guard
("clamp to a small positive floor after update"); the spec leaves the
constant unspecified, it is fixed here at one millionth. -/
def floorEps : ℚ := 1 / 1000000

/-- Modelled from the spec: per-pixel initialization of a belief cell from
an observed feature value v; the induced belief mean equals v ((alpha,
beta) = (v, 1), one observation), with alpha clamped to the positive floor
so the invariant alpha > 0 holds even for a zero observation. -/
def initCell (v : ℚ) : ℚ × ℚ :=
  (max floorEps v, 1)

/-- Modelled from the spec: one per-pixel belief update with forgetting
factor f and observation v; the posterior (f*alpha + v, f*beta + 1) is
clamped to the positive floor before being stored. -/
def updateCell (f a0 b0 v : ℚ) : ℚ × ℚ :=
  (max floorEps (f * a0 + v), max floorEps (f * b0 + 1))

/-- Modelled from the spec: a BeliefSurface, one grid of per-pixel
hyperparameter pairs (alpha, beta) for one channel, with its allocated
resolution. -/
structure BeliefSurface : Type where
  width : ℕ
  height : ℕ
  cells : List (ℚ × ℚ)

/-- Modelled from the spec: the spec's `initialize(featureMap)` on a belief
surface, allocating at the frame's resolution and initializing every cell
from the frame's own feature values. -/
def BeliefSurface.init (w h : ℕ) (fm : List ℚ) : BeliefSurface :=
  ⟨w, h, fm.map initCell⟩

/-- Modelled from the spec: the surface part of `updateAndDiverge`: every
cell is replaced by its clamped posterior. -/
def updateSurface (f : ℚ) (s : BeliefSurface) (fm : List ℚ) : BeliefSurface :=
  ⟨s.width, s.height, List.zipWith (fun c v => updateCell f c.1 c.2 v) s.cells fm⟩

/-- Digamma function, the derivative of the log-Gamma function, used by the
closed-form Gamma Kullback-Leibler divergence. -/
noncomputable def digamma (x : ℝ) : ℝ :=
  deriv (fun y => Real.log (Real.Gamma y)) x

/-- Modelled from the spec: the closed-form Kullback-Leibler divergence of
the posterior Gamma(a1, b1) from the prior Gamma(a0, b0) (rate
parametrization), "a function of alpha0, beta0, alpha1, beta1 involving
log-gamma and digamma terms". -/
noncomputable def klGamma (a0 b0 a1 b1 : ℝ) : ℝ :=
  (a1 - a0) * digamma a1 - Real.log (Real.Gamma a1) + Real.log (Real.Gamma a0)
    + a0 * (Real.log b1 - Real.log b0) + a1 * (b0 - b1) / b1

/-- Modelled from the spec: the divergence-map part of `updateAndDiverge`:
each pixel emits the Kullback-Leibler divergence of its posterior belief
from its prior belief. -/
noncomputable def divergences (f : ℚ) (s : BeliefSurface) (fm : List ℚ) : List ℝ :=
  List.zipWith
    (fun (c : ℚ × ℚ) v =>
      klGamma (c.1 : ℝ) (c.2 : ℝ) ((updateCell f c.1 c.2 v).1 : ℝ) ((updateCell f c.1 c.2 v).2 : ℝ))
    s.cells fm

/-- Modelled from the spec: `updateAndDiverge(featureMap)`: store the
clamped posterior in every cell and emit the per-pixel divergence map. -/
noncomputable def updateAndDiverge (f : ℚ) (s : BeliefSurface) (fm : List ℚ) :
    BeliefSurface × List ℝ :=
  (updateSurface f s fm, divergences f s fm)

/-- Per-frame output of the external feature extractor: one feature map per
channel, all sharing one resolution. -/
structure FeatureMaps : Type where
  width : ℕ
  height : ℕ
  chan : Chan → List ℚ

/-- Modelled from the spec: the SurpriseEngine state: the configured update
factor, the active channel list, and one optional belief surface per
channel (none while unallocated). -/
structure SurpriseEngine : Type where
  fac : ℚ
  chans : List Chan
  surf : Chan → Option BeliefSurface

/-- An engine whose belief surfaces are all (re)initialized (freshly
created or reset): no surface is allocated. -/
def freshState (f : ℚ) (cs : List Chan) : SurpriseEngine :=
  ⟨f, cs, fun _ => none⟩

/-- Modelled from the spec: the per-channel step of `process`: an
unallocated or resolution-mismatched surface is (re)initialized from the
frame (contributing no divergence), otherwise it is updated and its
divergence map is emitted. -/
noncomputable def stepChan (f : ℚ) (fm : FeatureMaps) (c : Chan) (os : Option BeliefSurface) :
    BeliefSurface × List ℝ :=
  match os with
  | none => (BeliefSurface.init fm.width fm.height (fm.chan c), [])
  | some s =>
      if s.width = fm.width ∧ s.height = fm.height then updateAndDiverge f s (fm.chan c)
      else (BeliefSurface.init fm.width fm.height (fm.chan c), [])

/-- Modelled from the spec: one `process` step on already-extracted feature
maps: every active channel is stepped, the new surfaces are stored, and the
per-pixel divergences of all channels are summed and converted to wows
(base-2 logarithmic unit). -/
noncomputable def processFM (st : SurpriseEngine) (fm : FeatureMaps) : SurpriseEngine × ℝ :=
  let res := st.chans.map fun c => (c, stepChan st.fac fm c (st.surf c))
  (⟨st.fac, st.chans, res.foldl (fun g p => Function.update g p.1 (some p.2.1)) st.surf⟩,
    (res.map fun p => p.2.2.sum).sum / Real.log 2)

/-- Extraction-time failure, the spec's ExtractionFailure taxonomy entry. -/
inductive ProcError : Type
  | extractionFailure
deriving DecidableEq

/-- Modelled from the spec: `process(frame)`: the borrowed feature
extractor is invoked once; its failure is propagated unchanged with the
belief state left at its pre-call value, otherwise the extracted maps drive
one engine step. -/
noncomputable def process {Frame : Type} (extract : Frame → Except ProcError FeatureMaps)
    (st : SurpriseEngine) (fr : Frame) : SurpriseEngine × Except ProcError ℝ :=
  match extract fr with
  | Except.error e => (st, Except.error e)
  | Except.ok fm => ((processFM st fm).1, Except.ok (processFM st fm).2)

/-! ## Helper lemmas -/

theorem mem_of_mem_dedupFirstAux {α : Type} [DecidableEq α] {a : α} :
    ∀ (seen l : List α), a ∈ dedupFirstAux seen l → a ∈ l := by
  intro seen l
  induction l generalizing seen with
  | nil => simp [dedupFirstAux]
  | cons b l ih =>
    simp only [dedupFirstAux]
    by_cases hb : b ∈ seen
    · rw [if_pos hb]
      intro h
      exact List.mem_cons_of_mem _ (ih seen h)
    · rw [if_neg hb]
      intro h
      rcases List.mem_cons.mp h with rfl | h
      · exact List.mem_cons_self _ _
      · exact List.mem_cons_of_mem _ (ih _ h)

theorem mem_of_mem_dedupFirst {α : Type} [DecidableEq α] {a : α} {l : List α}
    (h : a ∈ dedupFirst l) : a ∈ l :=
  mem_of_mem_dedupFirstAux [] l h

theorem dedupFirst_eq_nil_iff {α : Type} [DecidableEq α] (l : List α) :
    dedupFirst l = [] ↔ l = [] := by
  cases l with
  | nil => simp [dedupFirst, dedupFirstAux]
  | cons a l => simp [dedupFirst, dedupFirstAux]

theorem dedupFirstAux_nodup {α : Type} [DecidableEq α] :
    ∀ (seen l : List α),
      (dedupFirstAux seen l).Nodup ∧ ∀ a ∈ dedupFirstAux seen l, a ∉ seen := by
  intro seen l
  induction l generalizing seen with
  | nil => simp [dedupFirstAux]
  | cons b l ih =>
    simp only [dedupFirstAux]
    by_cases hb : b ∈ seen
    · rw [if_pos hb]
      exact ih seen
    · rw [if_neg hb]
      obtain ⟨hnd, hout⟩ := ih (b :: seen)
      refine ⟨List.nodup_cons.mpr ⟨fun hmem => ?_, hnd⟩, ?_⟩
      · exact hout b hmem (List.mem_cons_self _ _)
      · intro a ha
        rcases List.mem_cons.mp ha with rfl | ha
        · exact hb
        · exact fun hs => hout a ha (List.mem_cons_of_mem _ hs)

theorem dedupFirst_nodup {α : Type} [DecidableEq α] (l : List α) : (dedupFirst l).Nodup :=
  (dedupFirstAux_nodup [] l).1

theorem filterMap_charToChan_roundtrip :
    ∀ (l : List Char), (∀ c ∈ l, c ∈ chanAlphabet) →
      (l.filterMap charToChan).map chanToChar = l := by
  intro l hl
  induction l with
  | nil => simp
  | cons c l ih =>
    have hc : c ∈ chanAlphabet := hl c (List.mem_cons_self _ _)
    obtain ⟨t, ht, htc⟩ : ∃ t, charToChan c = some t ∧ chanToChar t = c := by
      simp only [chanAlphabet, List.mem_cons, List.not_mem_nil, or_false] at hc
      rcases hc with rfl | rfl | rfl | rfl | rfl | rfl | rfl <;> exact ⟨_, rfl, rfl⟩
    rw [List.filterMap_cons, ht, List.map_cons, htc,
      ih fun d hd => hl d (List.mem_cons_of_mem _ hd)]

theorem exists_of_mem_zipWith {α β γ : Type} {f : α → β → γ} {c : γ} :
    ∀ {l1 : List α} {l2 : List β}, c ∈ List.zipWith f l1 l2 →
      ∃ a b, a ∈ l1 ∧ b ∈ l2 ∧ c = f a b := by
  intro l1
  induction l1 with
  | nil => intro l2 h; simp at h
  | cons a l ih =>
    intro l2 h
    cases l2 with
    | nil => simp at h
    | cons b l2 =>
      rw [List.zipWith_cons_cons] at h
      rcases List.mem_cons.mp h with rfl | h
      · exact ⟨a, b, List.mem_cons_self _ _, List.mem_cons_self _ _, rfl⟩
      · obtain ⟨x, y, hx, hy, rfl⟩ := ih h
        exact ⟨x, y, List.mem_cons_of_mem _ hx, List.mem_cons_of_mem _ hy, rfl⟩

theorem foldl_update_eq {α β : Type} [DecidableEq α] (V : α → β) (l : List α) (f0 : α → β)
    (c : α) :
    (l.foldl (fun g a => Function.update g a (V a)) f0) c = if c ∈ l then V c else f0 c := by
  induction l generalizing f0 with
  | nil => simp
  | cons a l ih =>
    rw [List.foldl_cons, ih]
    by_cases hcl : c ∈ l
    · simp [hcl]
    · by_cases hca : c = a
      · subst hca
        simp [hcl, Function.update_same]
      · simp [hcl, hca, Function.update_noteq hca]

theorem floorEps_pos : (0 : ℚ) < floorEps := by
  unfold floorEps
  norm_num

/-! ## Claim theorems -/

/-- C8: a candidate `channels` string is accepted iff every character
belongs to the fixed case-sensitive uppercase alphabet S, C, I, O, F, M, G
and the string is non-empty after deduplication; any string with an
unrecognized character, and the empty string, is rejected with a
ConfigurationError. -/
theorem channels_accept_iff (old : List Chan) (s : String) :
    (validChannels s ↔ ((∀ c ∈ s.data, c ∈ chanAlphabet) ∧ dedupFirst s.data ≠ [])) ∧
    ((setChannels old s).2 = some ConfigError.configurationError ↔ ¬ validChannels s) := by
  constructor
  · unfold validChannels
    simp only [ne_eq, dedupFirst_eq_nil_iff]
    tauto
  · by_cases h : validChannels s <;> simp [setChannels, h]

theorem channels_accept_iff_w :
    validChannels (String.mk ['S', 'X']) ↔
      ((∀ c ∈ (String.mk ['S', 'X']).data, c ∈ chanAlphabet) ∧
        dedupFirst (String.mk ['S', 'X']).data ≠ []) :=
  (channels_accept_iff [] (String.mk ['S', 'X'])).1

/-- C6: setting `channels` to a valid string stores (and reads back as) the
deduplicated, alphabet-validated form of the string, first-occurrence
order with duplicates removed; an invalid string is rejected with a
ConfigurationError and the previously stored value is kept. -/
theorem channels_roundtrip (old : List Chan) (s : String) :
    (validChannels s →
      setChannels old s = (parseChannels s, none) ∧
      renderChannels (parseChannels s) = ⟨dedupFirst s.data⟩ ∧
      (dedupFirst s.data).Nodup) ∧
    (¬ validChannels s → setChannels old s = (old, some ConfigError.configurationError)) := by
  constructor
  · intro h
    refine ⟨by simp [setChannels, h], ?_, dedupFirst_nodup s.data⟩
    unfold renderChannels parseChannels
    congr 1
    exact filterMap_charToChan_roundtrip _ fun c hc => h.2 c (mem_of_mem_dedupFirst hc)
  · intro h
    simp [setChannels, h]

theorem channels_roundtrip_w :
    setChannels [] (String.mk ['S', 'S', 'G']) =
        (parseChannels (String.mk ['S', 'S', 'G']), none) ∧
      renderChannels (parseChannels (String.mk ['S', 'S', 'G'])) =
        ⟨dedupFirst (String.mk ['S', 'S', 'G']).data⟩ ∧
      (dedupFirst (String.mk ['S', 'S', 'G']).data).Nodup :=
  (channels_roundtrip [] (String.mk ['S', 'S', 'G'])).1 (by decide)

/-- C7 counterexample: the value 0.9995 lies in the open interval (0, 1)
yet is rejected by the declared range [0.001, 0.999] of `updatefac`, the
previously stored default remaining in effect. -/
theorem updatefac_open_interval_counterexample :
    (0 < (9995 / 10000 : ℚ) ∧ (9995 / 10000 : ℚ) < 1) ∧
    ¬ validUpdatefac (9995 / 10000) ∧
    setUpdatefac updatefacDefault (9995 / 10000) =
      (updatefacDefault, some ConfigError.configurationError) := by
  have h : ¬ validUpdatefac (9995 / 10000) := by
    unfold validUpdatefac
    norm_num
  exact ⟨by norm_num, h, by simp [setUpdatefac, h]⟩

/-- C7 amended: setting `updatefac` succeeds exactly for values in the
inclusive range [0.001, 0.999] declared in Surprise.H; the check happens at
set-time, an invalid value is rejected with a ConfigurationError, and the
previously stored value (default 0.95) remains in effect. -/
theorem updatefac_validation (old v : ℚ) :
    (validUpdatefac v ↔ (1 / 1000 ≤ v ∧ v ≤ 999 / 1000)) ∧
    (validUpdatefac v → setUpdatefac old v = (v, none)) ∧
    (¬ validUpdatefac v → setUpdatefac old v = (old, some ConfigError.configurationError)) ∧
    updatefacDefault = 95 / 100 :=
  ⟨Iff.rfl, fun h => by simp [setUpdatefac, h], fun h => by simp [setUpdatefac, h], rfl⟩

theorem updatefac_validation_w :
    setUpdatefac updatefacDefault (1 / 2) = (1 / 2, none) :=
  (updatefac_validation updatefacDefault (1 / 2)).2.1 (by unfold validUpdatefac; norm_num)

/-- C2 counterexample: with the valid update factor 0.5, a cell at the
positive floor observing the value 0 does not store the raw posterior
(f*alpha0 + v, f*beta0 + 1): the alpha component is clamped back up to the
floor before being stored. -/
theorem update_exact_posterior_counterexample :
    validUpdatefac (1 / 2) ∧
    (updateAndDiverge (1 / 2) ⟨1, 1, [(floorEps, 1)]⟩ [0]).1.cells ≠
      [(1 / 2 * floorEps + 0, 1 / 2 * 1 + 1)] := by
  constructor
  · unfold validUpdatefac
    norm_num
  · unfold updateAndDiverge updateSurface updateCell floorEps
    simp only [List.zipWith_cons_cons, List.zipWith_nil_right]
    intro h
    injection h with h2 h3
    injection h2 with hfst hsnd
    rw [max_eq_left (by norm_num : (1 : ℚ) / 2 * (1 / 1000000) + 0 ≤ 1 / 1000000)] at hfst
    norm_num at hfst

/-- C2 amended: one update step computes the raw posterior
(f*alpha0 + v, f*beta0 + 1) and stores it clamped to the positive floor;
whenever a raw component is at least the floor, the stored component equals
it exactly, and the stored cells of `updateAndDiverge` are exactly these
per-pixel update results. -/
theorem update_posterior_clamped (f a0 b0 v : ℚ) (s : BeliefSurface) (fm : List ℚ) :
    (floorEps ≤ f * a0 + v → (updateCell f a0 b0 v).1 = f * a0 + v) ∧
    (f * a0 + v < floorEps → (updateCell f a0 b0 v).1 = floorEps) ∧
    (floorEps ≤ f * b0 + 1 → (updateCell f a0 b0 v).2 = f * b0 + 1) ∧
    (f * b0 + 1 < floorEps → (updateCell f a0 b0 v).2 = floorEps) ∧
    (updateAndDiverge f s fm).1.cells =
      List.zipWith (fun (c : ℚ × ℚ) w => updateCell f c.1 c.2 w) s.cells fm := by
  refine ⟨fun h => max_eq_right h, fun h => max_eq_left (le_of_lt h),
    fun h => max_eq_right h, fun h => max_eq_left (le_of_lt h), rfl⟩

theorem update_posterior_clamped_w :
    (updateCell (1 / 2) 1 1 3).1 = 1 / 2 * 1 + 3 ∧
    (updateCell (1 / 2) 1 1 3).2 = 1 / 2 * 1 + 1 :=
  ⟨(update_posterior_clamped (1 / 2) 1 1 3 ⟨1, 1, []⟩ []).1
      (by unfold floorEps; norm_num),
    (update_posterior_clamped (1 / 2) 1 1 3 ⟨1, 1, []⟩ []).2.2.1
      (by unfold floorEps; norm_num)⟩

/-- C4: after initialization as well as after an update step, every cell of
a belief surface has both hyperparameters at least the positive floor, in
particular strictly positive (finiteness is automatic in this exact
rational embedding); the clamp applied by each operation preserves the
invariant at every step. -/
theorem belief_surface_positive (f : ℚ) (w h : ℕ) (fm0 fm : List ℚ) (s : BeliefSurface) :
    (∀ c ∈ (BeliefSurface.init w h fm0).cells,
      floorEps ≤ c.1 ∧ floorEps ≤ c.2 ∧ 0 < c.1 ∧ 0 < c.2) ∧
    (∀ c ∈ (updateAndDiverge f s fm).1.cells,
      floorEps ≤ c.1 ∧ floorEps ≤ c.2 ∧ 0 < c.1 ∧ 0 < c.2) := by
  constructor
  · intro c hc
    obtain ⟨v, hv, rfl⟩ := List.mem_map.mp hc
    unfold initCell
    refine ⟨le_max_left _ _, ?_, lt_of_lt_of_le floorEps_pos (le_max_left _ _), by norm_num⟩
    unfold floorEps
    norm_num
  · intro c hc
    obtain ⟨p, v, hp, hv, rfl⟩ := exists_of_mem_zipWith hc
    unfold updateCell
    exact ⟨le_max_left _ _, le_max_left _ _,
      lt_of_lt_of_le floorEps_pos (le_max_left _ _),
      lt_of_lt_of_le floorEps_pos (le_max_left _ _)⟩

theorem belief_surface_positive_w :
    floorEps ≤ (initCell 0).1 ∧ floorEps ≤ (initCell 0).2 ∧
      0 < (initCell 0).1 ∧ 0 < (initCell 0).2 :=
  (belief_surface_positive 1 1 1 [0] [] ⟨1, 1, []⟩).1 (initCell 0)
    (by simp [BeliefSurface.init])

/-- C1: for every channel selection and every valid update factor, the
first frame processed after the engine's belief surfaces are
(re)initialized (no surface allocated) yields surprise exactly 0: every
active channel takes the initialization path and contributes no
divergence. -/
theorem first_frame_zero (f : ℚ) (cs : List Chan) (fm : FeatureMaps)
    (hf : validUpdatefac f) :
    (processFM (freshState f cs) fm).2 = 0 := by
  have h1 : ((cs.map fun c => (c, stepChan f fm c none)).map fun p => p.2.2.sum).sum
      = (0 : ℝ) := by
    apply List.sum_eq_zero
    intro x hx
    rw [List.map_map] at hx
    obtain ⟨c, hc, rfl⟩ := List.mem_map.mp hx
    simp [stepChan]
  simp only [processFM, freshState]
  rw [h1, zero_div]

theorem first_frame_zero_w :
    (processFM (freshState (95 / 100) [Chan.S]) ⟨1, 1, fun _ => [5]⟩).2 = 0 :=
  first_frame_zero (95 / 100) [Chan.S] ⟨1, 1, fun _ => [5]⟩
    (by unfold validUpdatefac; norm_num)

/-- C5: if the feature extractor fails during a `process` call, the failure
is propagated unchanged to the caller and the belief state (the whole
engine state, hence every channel's surface) equals its pre-call value: a
failed frame updates no channel at all. -/
theorem extraction_failure_atomic {Frame : Type}
    (extract : Frame → Except ProcError FeatureMaps) (st : SurpriseEngine) (fr : Frame)
    (e : ProcError) (he : extract fr = Except.error e) :
    process extract st fr = (st, Except.error e) := by
  unfold process
  rw [he]

theorem extraction_failure_atomic_w :
    process (fun _ : Unit => Except.error ProcError.extractionFailure)
        (freshState (95 / 100) [Chan.S]) () =
      (freshState (95 / 100) [Chan.S], Except.error ProcError.extractionFailure) :=
  extraction_failure_atomic _ _ _ ProcError.extractionFailure rfl

/-- C9: a frame whose resolution differs from that of every allocated
surface of the active channels makes `process` reinitialize all active
channels from that frame and return surprise 0; in this total model the
call returns normally, with no dimension-mismatch fault. -/
theorem resolution_change_reinit (st : SurpriseEngine) (fm : FeatureMaps)
    (hmis : ∀ c ∈ st.chans, ∀ s, st.surf c = some s →
      ¬(s.width = fm.width ∧ s.height = fm.height)) :
    (processFM st fm).2 = 0 ∧
    ∀ c ∈ st.chans, (processFM st fm).1.surf c =
      some (BeliefSurface.init fm.width fm.height (fm.chan c)) := by
  have hstep : ∀ c ∈ st.chans, stepChan st.fac fm c (st.surf c) =
      (BeliefSurface.init fm.width fm.height (fm.chan c), ([] : List ℝ)) := by
    intro c hc
    cases hsc : st.surf c with
    | none => simp [stepChan]
    | some s =>
      have hne := hmis c hc s hsc
      simp [stepChan, hne]
  have hres : (st.chans.map fun c => (c, stepChan st.fac fm c (st.surf c))) =
      st.chans.map fun c =>
        (c, (BeliefSurface.init fm.width fm.height (fm.chan c), ([] : List ℝ))) :=
    List.map_congr_left fun c hc => by rw [hstep c hc]
  constructor
  · simp only [processFM]
    rw [hres, List.map_map]
    have h0 : ((fun (p : Chan × (BeliefSurface × List ℝ)) => p.2.2.sum) ∘ fun c =>
        (c, (BeliefSurface.init fm.width fm.height (fm.chan c), ([] : List ℝ)))) =
        fun _ => (0 : ℝ) := by
      funext c
      simp
    rw [h0]
    have hz : (st.chans.map fun _ => (0 : ℝ)).sum = 0 := by
      apply List.sum_eq_zero
      intro x hx
      obtain ⟨c, hc, rfl⟩ := List.mem_map.mp hx
      rfl
    rw [hz, zero_div]
  · intro c hc
    simp only [processFM]
    rw [hres, List.foldl_map, foldl_update_eq
      (fun c => some (BeliefSurface.init fm.width fm.height (fm.chan c))) st.chans st.surf c,
      if_pos hc]

theorem resolution_change_reinit_w :
    (processFM ⟨19 / 20, [Chan.S], fun _ => some ⟨2, 2, [(1, 1)]⟩⟩
        ⟨3, 3, fun _ => [0]⟩).2 = 0 :=
  (resolution_change_reinit ⟨19 / 20, [Chan.S], fun _ => some ⟨2, 2, [(1, 1)]⟩⟩
      ⟨3, 3, fun _ => [0]⟩
      (by
        intro c hc s hs
        obtain rfl : (⟨2, 2, [(1, 1)]⟩ : BeliefSurface) = s := Option.some_inj.mp hs
        simp)).1

end Surprise
